import Mathlib

/-!
Shallow embedding of kr/sshpool (src/pool.go) in Lean 4, and proofs of the
frozen claims about it.

Modelling conventions:
* `time.Time` values are `Nat`; the zero time (`time.Time{}`, `IsZero`) is `0`.
* `time.Duration` is `Nat`; Go's `Duration / 2` is Nat division.
* error values are `Option Nat` (`none` = nil error, `some e` = a non-nil
  error identified by a code); sessions and client handles are `Nat` ids.
* pointer identity of `*conn` values is modelled by a unique allocation id
  carried in the record; the pool allocates ids from a counter so two live
  entries never share an id.
* the outcomes of the external blocking calls (the raw network dial, the
  ssh handshake, `NewSession`) are supplied by oracles (`SEnv`), since they
  are external collaborators of the pool.
-/

namespace Sshpool

/-- A pooled connection entry (`type conn` in pool.go), as seen by the
sequential model: its allocation identity and its dial error field.
`id` models the Go pointer; `err` models `c.err`. -/
structure SConn where
  id : Nat
  err : Option Nat
deriving DecidableEq, Repr

/-- Association-list lookup for the pool table `p.tab : map[string]*conn`. -/
def lookupTab (tab : List (String × SConn)) (k : String) : Option SConn :=
  match tab with
  | [] => none
  | (k1, c) :: rest => if k1 = k then some c else lookupTab rest k

/-- Remove the first binding of `k` from the table (Go `delete(p.tab, k)`;
table keys are unique in every reachable pool state). -/
def eraseTab (tab : List (String × SConn)) (k : String) : List (String × SConn) :=
  match tab with
  | [] => []
  | (k1, c) :: rest => if k1 = k then rest else (k1, c) :: eraseTab rest k

/-- `Pool.removeConn` (pool.go:107-114): under the table lock, look up `k`
and delete the mapping only when the stored entry is reference-identical
(`c == c1`) to the entry the caller holds. -/
def removeConn (tab : List (String × SConn)) (k : String) (c1 : SConn) :
    List (String × SConn) :=
  match lookupTab tab k with
  | some c => if c = c1 then eraseTab tab k else tab
  | none => tab

/-- Observable events of one `Open` call in the sequential model. -/
inductive Ev where
  | dial (n : Nat)
  | attempt (n : Nat) (sessionDeadline : Nat)
  | closeClient (cid : Nat)
deriving DecidableEq, Repr

/-- Oracles for the external collaborators consumed by `Open`:
the outcome of the n-th Dialer invocation, the outcome of the n-th
`NewSession` attempt (`none` means success), and the clock value observed
at the `time.Now().After(deadline)` check after the n-th attempt. -/
structure SEnv where
  dialErr : Nat → Option Nat
  sessErr : Nat → Option Nat
  nowAt : Nat → Nat

/-- Sequential pool state threaded through one or more `Open` calls:
the table, the allocation counter for `*conn` identities, and the
indices selecting the next dial / attempt oracle values. -/
structure SSt where
  tab : List (String × SConn)
  nextId : Nat
  dialIdx : Nat
  attemptIdx : Nat
deriving DecidableEq, Repr

/-- `Pool.getConn` (pool.go:87-104), single-caller view: if the table has an
entry for `k` return it (the completion signal of a published entry has
already fired in a single-caller run); otherwise insert a fresh entry and
dial, the dial outcome coming from the `dialErr` oracle. -/
def getConn (env : SEnv) (st : SSt) (k : String) : SConn × SSt × List Ev :=
  match lookupTab st.tab k with
  | some c => (c, st, [])
  | none =>
      let c : SConn := ⟨st.nextId, env.dialErr st.dialIdx⟩
      (c, { st with tab := (k, c) :: st.tab, nextId := st.nextId + 1,
                    dialIdx := st.dialIdx + 1 }, [Ev.dial st.dialIdx])

/-- The retry loop of `Pool.Open` (pool.go:51-67). `deadline` is the overall
deadline computed before the loop, `sd` the current session deadline.
`fuel` bounds the number of iterations; `none` means fuel ran out.
Returns the result (`Except` error / session id), the final state and the
event trace. -/
def openLoop (env : SEnv) (T deadline : Nat) (k : String) :
    Nat → Nat → SSt → Option (Except Nat Nat × SSt × List Ev)
  | 0, _, _ => none
  | fuel + 1, sd, st =>
      let g := getConn env st k
      let c := g.1
      let st1 := g.2.1
      let evs1 := g.2.2
      match c.err with
      | some e =>
          some (Except.error e, { st1 with tab := removeConn st1.tab k c }, evs1)
      | none =>
          let a := st1.attemptIdx
          let st2 := { st1 with attemptIdx := a + 1 }
          let evs2 := evs1 ++ [Ev.attempt a sd]
          match env.sessErr a with
          | none => some (Except.ok a, st2, evs2)
          | some e =>
              let st3 := { st2 with tab := removeConn st2.tab k c }
              let evs3 := evs2 ++ [Ev.closeClient c.id]
              if T > 0 ∧ env.nowAt a > deadline then
                some (Except.error e, st3, evs3)
              else
                match openLoop env T deadline k fuel deadline st3 with
                | none => none
                | some (r, st4, evs4) => some (r, st4, evs3 ++ evs4)

/-- `Pool.Open` (pool.go:39-67): compute the overall deadline `now + Timeout`
and the first session deadline `now + Timeout/2` (both the zero time when
`Timeout` is 0), then run the loop. -/
def OpenS (env : SEnv) (T now0 : Nat) (k : String) (fuel : Nat) (st : SSt) :
    Option (Except Nat Nat × SSt × List Ev) :=
  let deadline := if T > 0 then now0 + T else 0
  let sd := if T > 0 then now0 + T / 2 else 0
  openLoop env T deadline k fuel sd st

/-- Events of the default Dialer `Pool.dial` (pool.go:116-132). -/
inductive DEv where
  | rawDial
  | closeNet (nc : Nat)
deriving DecidableEq, Repr

/-- `Pool.dial` (pool.go:116-132): run the raw network dial (whose outcome
`raw` is an oracle — either `p.Dial` or `net.Dialer{Deadline}.Dial`); on
failure return `(nil, nil, err)`. On success run the ssh handshake
`ssh.Client(netC, config)` (oracle `hs`); on handshake failure close the
network connection and return `(nil, nil, err)`; otherwise return both
handles and a nil error. -/
def dial (raw : Except Nat Nat) (hs : Nat → Except Nat Nat) :
    (Option Nat × Option Nat × Option Nat) × List DEv :=
  match raw with
  | Except.error e => ((none, none, some e), [DEv.rawDial])
  | Except.ok netC =>
      match hs netC with
      | Except.error e => ((none, none, some e), [DEv.rawDial, DEv.closeNet netC])
      | Except.ok sshC => ((some netC, some sshC, none), [DEv.rawDial])

/-- The transport (`net.Conn`) state visible to `newSession`: its current
read/write deadline (0 = no deadline, Go's zero `time.Time`). -/
structure Transport where
  deadline : Nat
deriving DecidableEq, Repr

/-- Events of `conn.newSession`. -/
inductive NEv where
  | setDL (d : Nat)
  | callNewSession
deriving DecidableEq, Repr

/-- `c.netC.SetDeadline(d)`. -/
def setDeadlineOp (d : Nat) (_tr : Transport) : Transport × List NEv :=
  ({ deadline := d }, [NEv.setDL d])

/-- `conn.newSession` (pool.go:77-83): when the given deadline is not the
zero time, set it on the transport and defer resetting it to the zero
time; then call `c.c.NewSession()` (outcome `res` is an oracle). The
deferred reset runs after `NewSession` returns, on success and on
failure alike. -/
def newSession (res : Except Nat Nat) (dl : Nat) (tr : Transport) :
    Except Nat Nat × Transport × List NEv :=
  if dl = 0 then
    (res, tr, [NEv.callNewSession])
  else
    let p1 := setDeadlineOp dl tr
    let p2 := setDeadlineOp 0 p1.1
    (res, p2.1, p1.2 ++ [NEv.callNewSession] ++ p2.2)

/-- A concrete oracle environment: every dial fails with error 5, every
session attempt succeeds, the clock always reads 0. -/
def envDialFail : SEnv := ⟨fun _ => some 5, fun _ => none, fun _ => 0⟩

/-- The empty pool state. -/
def st0 : SSt := ⟨[], 0, 0, 0⟩

/-- A concrete oracle environment: dials succeed, every session attempt
fails with error 3, the clock always reads 100. -/
def envSF : SEnv := ⟨fun _ => none, fun _ => some 3, fun _ => 100⟩

/-- A concrete oracle environment: dials and session attempts succeed, the
clock always reads 0. -/
def envOK : SEnv := ⟨fun _ => none, fun _ => none, fun _ => 0⟩

/-- The session deadlines carried by the attempt events of a trace, in
order. -/
def attemptDLs (evs : List Ev) : List Nat :=
  evs.filterMap (fun ev => match ev with
    | Ev.attempt _ d => some d
    | _ => none)

/-! ### The default Key Deriver: `strconv.Quote` and `AddrUserKey`
(pool.go:144-146)

Strings are modelled as lists of runes (`List Char`). `strconv.Quote` is
embedded rune by rune after Go's `quoteWith(s, '"', false)`, parameterized
by the printability predicate `isP` (Go instantiates it with
`unicode.IsPrint`; every theorem below holds for every predicate). -/

/-- Go's `lowerhex` digit table. -/
def hexDig (n : Nat) : Char :=
  if n < 10 then Char.ofNat (48 + n) else Char.ofNat (87 + n)

/-- `\xHH` escape for a byte-sized rune. -/
def escByte (r : Char) : List Char :=
  ['\\', 'x', hexDig (r.toNat / 16 % 16), hexDig (r.toNat % 16)]

/-- `\uHHHH` escape for a rune below `0x10000`. -/
def escU4 (r : Char) : List Char :=
  ['\\', 'u', hexDig (r.toNat / 4096 % 16), hexDig (r.toNat / 256 % 16),
   hexDig (r.toNat / 16 % 16), hexDig (r.toNat % 16)]

/-- `\UHHHHHHHH` escape for a larger rune. -/
def escU8 (r : Char) : List Char :=
  ['\\', 'U', hexDig (r.toNat / 268435456 % 16), hexDig (r.toNat / 16777216 % 16),
   hexDig (r.toNat / 1048576 % 16), hexDig (r.toNat / 65536 % 16),
   hexDig (r.toNat / 4096 % 16), hexDig (r.toNat / 256 % 16),
   hexDig (r.toNat / 16 % 16), hexDig (r.toNat % 16)]

/-- One rune of Go's `quoteWith` body: quote and backslash are
backslash-escaped; printable runes pass through; the named control escapes
come next; remaining runes get `\x`, `\u` or `\U` hex escapes. -/
def quoteRune (isP : Char → Bool) (r : Char) : List Char :=
  if r = '"' ∨ r = '\\' then ['\\', r]
  else if isP r then [r]
  else if r = Char.ofNat 7 then ['\\', 'a']
  else if r = Char.ofNat 8 then ['\\', 'b']
  else if r = Char.ofNat 12 then ['\\', 'f']
  else if r = '\n' then ['\\', 'n']
  else if r = Char.ofNat 13 then ['\\', 'r']
  else if r = '\t' then ['\\', 't']
  else if r = Char.ofNat 11 then ['\\', 'v']
  else if r.toNat < 32 then escByte r
  else if r.toNat < 65536 then escU4 r
  else escU8 r

/-- `strconv.Quote`: a double quote, the escaped body, a double quote. -/
def quote (isP : Char → Bool) (s : List Char) : List Char :=
  '"' :: (s.flatMap (quoteRune isP) ++ ['"'])

/-- `AddrUserKey` (pool.go:144-146): quote each of net, addr and
`config.User` and join with single spaces. -/
def AddrUserKey (isP : Char → Bool) (net addr user : List Char) : List Char :=
  quote isP net ++ [' '] ++ quote isP addr ++ [' '] ++ quote isP user

/-- Value of a lowercase hex digit. -/
def hexVal (c : Char) : Nat :=
  if c.toNat ≤ 57 then c.toNat - 48 else c.toNat - 87

/-- Prepend a decoded rune to a parse result. -/
def consFst (r : Char) : Option (List Char × List Char) →
    Option (List Char × List Char)
  | some (s, rst) => some (r :: s, rst)
  | none => none

/-- Value of a big-endian list of lowercase hex digits. -/
def hexValList (l : List Char) : Nat :=
  l.foldl (fun acc c => 16 * acc + hexVal c) 0

/-- Parse the body of a quoted literal up to its closing quote, undoing
`quoteRune`; returns the decoded runes and the remainder after the
closing quote. -/
def parseBody : List Char → Option (List Char × List Char)
  | [] => none
  | c :: rest =>
      if c = '"' then some ([], rest)
      else if c = '\\' then
        match rest with
        | [] => none
        | e :: rest2 =>
            if e = '"' ∨ e = '\\' then consFst e (parseBody rest2)
            else if e = 'a' then consFst (Char.ofNat 7) (parseBody rest2)
            else if e = 'b' then consFst (Char.ofNat 8) (parseBody rest2)
            else if e = 'f' then consFst (Char.ofNat 12) (parseBody rest2)
            else if e = 'n' then consFst '\n' (parseBody rest2)
            else if e = 'r' then consFst (Char.ofNat 13) (parseBody rest2)
            else if e = 't' then consFst '\t' (parseBody rest2)
            else if e = 'v' then consFst (Char.ofNat 11) (parseBody rest2)
            else if e = 'x' then
              if rest2.length < 2 then none
              else consFst (Char.ofNat (hexValList (rest2.take 2)))
                (parseBody (rest2.drop 2))
            else if e = 'u' then
              if rest2.length < 4 then none
              else consFst (Char.ofNat (hexValList (rest2.take 4)))
                (parseBody (rest2.drop 4))
            else if e = 'U' then
              if rest2.length < 8 then none
              else consFst (Char.ofNat (hexValList (rest2.take 8)))
                (parseBody (rest2.drop 8))
            else none
      else consFst c (parseBody rest)
termination_by l => l.length
decreasing_by
  all_goals simp_wf
  all_goals omega

/-- Parse one quoted literal. -/
def parseQuoted (l : List Char) : Option (List Char × List Char) :=
  match l with
  | [] => none
  | c :: rest => if c = '"' then parseBody rest else none

/-- Parse a full `AddrUserKey` output back into its three components. -/
def parseKey (l : List Char) : Option (List Char × List Char × List Char) :=
  match parseQuoted l with
  | none => none
  | some (n, r1) =>
      match r1 with
      | ' ' :: r2 =>
          match parseQuoted r2 with
          | none => none
          | some (a, r3) =>
              match r3 with
              | ' ' :: r4 =>
                  match parseQuoted r4 with
                  | none => none
                  | some (u, r5) => if r5 = [] then some (n, a, u) else none
              | _ => none
      | _ => none

/-! ### Concurrent single-flight dial (System A)

An interleaving semantics for N callers running `Pool.getConn`
(pool.go:87-104) concurrently on ONE contended key. The locked region
(lookup; insert if absent; unlock) is one atomic step, faithful to the
mutex. The dial runs outside the lock: its field write
(`c.netC, c.c, c.err = p.dial(...)`) and the broadcast `close(c.ok)` are
separate steps, in program order. A caller that found the entry blocks
until the signal fired (`<-c.ok`). `oc` is the fixed outcome the Dialer
produces for this key (`none` = success). -/

/-- The contended key's Connection Entry: whether `c.ok` is closed and the
stored dial outcome (`none` = fields not yet written). -/
structure AEntry where
  ready : Bool
  res : Option (Option Nat)
deriving DecidableEq, Repr

/-- Control state of one caller inside `getConn`. -/
inductive CSt where
  | start
  | dialing
  | closing
  | waiting
  | done
deriving DecidableEq, Repr

/-- A caller currently performing the dial (between inserting the entry and
closing its completion channel): the dial is in flight. -/
def inFl (c : CSt) : Prop := c = CSt.dialing ∨ c = CSt.closing

/-- Shared state: the table slot for the contended key, the callers'
control states, and the number of Dialer invocations so far. -/
structure ASt (N : Nat) where
  entry : Option AEntry
  callers : Fin N → CSt
  dials : Nat

/-- Pointwise update of a caller's control state. -/
def upd {N : Nat} (f : Fin N → CSt) (i : Fin N) (v : CSt) : Fin N → CSt :=
  fun j => if j = i then v else f j

/-- One interleaved step of some caller. -/
inductive AStep (oc : Option Nat) {N : Nat} : ASt N → ASt N → Prop where
  | enterWait (s : ASt N) (i : Fin N) (e : AEntry) :
      s.callers i = CSt.start → s.entry = some e →
      AStep oc s ⟨s.entry, upd s.callers i CSt.waiting, s.dials⟩
  | enterDial (s : ASt N) (i : Fin N) :
      s.callers i = CSt.start → s.entry = none →
      AStep oc s ⟨some ⟨false, none⟩, upd s.callers i CSt.dialing,
        s.dials + 1⟩
  | dialWrite (s : ASt N) (i : Fin N) (e : AEntry) :
      s.callers i = CSt.dialing → s.entry = some e →
      AStep oc s ⟨some ⟨e.ready, some oc⟩, upd s.callers i CSt.closing,
        s.dials⟩
  | closeOk (s : ASt N) (i : Fin N) (e : AEntry) :
      s.callers i = CSt.closing → s.entry = some e →
      AStep oc s ⟨some ⟨true, e.res⟩, upd s.callers i CSt.done, s.dials⟩
  | waitDone (s : ASt N) (i : Fin N) (e : AEntry) :
      s.callers i = CSt.waiting → s.entry = some e → e.ready = true →
      AStep oc s ⟨s.entry, upd s.callers i CSt.done, s.dials⟩

/-- Initial state: no entry for the key, every caller about to call
`getConn`, no Dialer invocation yet. -/
def AInit (N : Nat) : ASt N := ⟨none, fun _ => CSt.start, 0⟩

/-- Reachability from the initial state. -/
def AReach (oc : Option Nat) (N : Nat) : ASt N → Prop :=
  Relation.ReflTransGen (AStep oc) (AInit N)

/-- The single-flight invariant. -/
def AInv (oc : Option Nat) {N : Nat} (s : ASt N) : Prop :=
  (s.entry = none → s.dials = 0 ∧ ∀ i, s.callers i = CSt.start)
  ∧ ∀ e, s.entry = some e →
      s.dials = 1
      ∧ (∀ i j, inFl (s.callers i) → inFl (s.callers j) → i = j)
      ∧ (∀ i, s.callers i = CSt.done → e.ready = true)
      ∧ (e.ready = true → e.res = some oc ∧ ∀ i, ¬ inFl (s.callers i))
      ∧ ((∃ i, s.callers i = CSt.closing) → e.res = some oc)
      ∧ ((∃ i, s.callers i = CSt.dialing) → e.res = none ∧ e.ready = false)

/-- Intermediate states of a concrete 2-caller run with a succeeding
Dialer: caller 0 inserts and dials, caller 1 waits; both finish. -/
def sW1 : ASt 2 := ⟨some ⟨false, none⟩, upd (fun _ => CSt.start) 0 CSt.dialing, 1⟩

def sW2 : ASt 2 := ⟨some ⟨false, some none⟩, upd sW1.callers 0 CSt.closing, 1⟩

def sW3 : ASt 2 := ⟨some ⟨true, some none⟩, upd sW2.callers 0 CSt.done, 1⟩

def sW4 : ASt 2 := ⟨some ⟨true, some none⟩, upd sW3.callers 1 CSt.waiting, 1⟩

def sW5 : ASt 2 := ⟨some ⟨true, some none⟩, upd sW4.callers 1 CSt.done, 1⟩

/-! ### Eviction / transport close after session failure (System B)

N callers each hold a reference to the same pooled entry `cB` (returned to
all of them by the single-flight `getConn`), and each one's `NewSession`
attempt fails. Every such caller then runs the failure path of `Open`
(pool.go:61-62): `p.removeConn(k, c); c.c.Close()`. `closes` counts the
Close calls on the shared entry's transport. -/

/-- Control state of a caller in the failure path. -/
inductive BSt where
  | haveConn
  | done
deriving DecidableEq, Repr

/-- The entry shared by all B-callers. -/
def cB : SConn := ⟨0, none⟩

/-- Shared state: the pool table, the number of `c.c.Close()` calls on
`cB`, and the callers. -/
structure BState (N : Nat) where
  tab : List (String × SConn)
  closes : Nat
  callers : Fin N → BSt

/-- Pointwise update of a B-caller's control state. -/
def updB {N : Nat} (f : Fin N → BSt) (i : Fin N) (v : BSt) : Fin N → BSt :=
  fun j => if j = i then v else f j

/-- A caller whose session-open attempt failed evicts and closes. -/
inductive BStep (k : String) {N : Nat} : BState N → BState N → Prop where
  | fail (s : BState N) (i : Fin N) :
      s.callers i = BSt.haveConn →
      BStep k s ⟨removeConn s.tab k cB, s.closes + 1,
        updB s.callers i BSt.done⟩

/-- Initially the entry is published in the table, nobody has closed it. -/
def BInit (N : Nat) (k : String) : BState N :=
  ⟨[(k, cB)], 0, fun _ => BSt.haveConn⟩

/-- Reachability from the initial state. -/
def BReach (k : String) (N : Nat) : BState N → Prop :=
  Relation.ReflTransGen (BStep k) (BInit N k)

/-- States of a concrete 2-caller run in which both callers' session
attempts fail: both run the eviction path. -/
def sB1 : BState 2 := ⟨[], 1, updB (fun _ => BSt.haveConn) 0 BSt.done⟩

def sB2 : BState 2 := ⟨[], 2, updB sB1.callers 1 BSt.done⟩

/-- Number of callers that have completed the eviction path (each of them
called `c.c.Close()` exactly once). -/
def doneCount {N : Nat} (f : Fin N → BSt) : Nat :=
  (Finset.univ.filter (fun i => f i = BSt.done)).card

/-- Invariant of System B: the close count equals the number of callers
that discovered the failure, and the table either still holds the entry
(nobody discovered yet) or the mapping is gone (somebody did). -/
def BInv (k : String) {N : Nat} (s : BState N) : Prop :=
  s.closes = doneCount s.callers
  ∧ ((s.tab = [(k, cB)] ∧ ∀ i, s.callers i ≠ BSt.done)
     ∨ (s.tab = [] ∧ ∃ i, s.callers i = BSt.done))

/-! ### Table lemmas -/

theorem lookupTab_eq_none_of_not_mem (tab : List (String × SConn)) (k : String)
    (h : k ∉ tab.map Prod.fst) : lookupTab tab k = none := by
  induction tab with
  | nil => rfl
  | cons p rest ih =>
      obtain ⟨k1, c⟩ := p
      simp only [List.map_cons, List.mem_cons] at h
      push_neg at h
      have hne : ¬ k1 = k := fun hk => h.1 hk.symm
      simp only [lookupTab, if_neg hne]
      exact ih h.2

theorem lookupTab_eraseTab_self (tab : List (String × SConn)) (k : String)
    (hnd : (tab.map Prod.fst).Nodup) : lookupTab (eraseTab tab k) k = none := by
  induction tab with
  | nil => rfl
  | cons p rest ih =>
      obtain ⟨k1, c⟩ := p
      simp only [List.map_cons, List.nodup_cons] at hnd
      by_cases hk : k1 = k
      · simp only [eraseTab, if_pos hk]
        exact lookupTab_eq_none_of_not_mem rest k (hk ▸ hnd.1)
      · simp only [eraseTab, if_neg hk, lookupTab, if_neg hk]
        exact ih hnd.2

theorem lookupTab_eraseTab_ne (tab : List (String × SConn)) (k k' : String)
    (h : k' ≠ k) : lookupTab (eraseTab tab k) k' = lookupTab tab k' := by
  induction tab with
  | nil => rfl
  | cons p rest ih =>
      obtain ⟨k1, c⟩ := p
      by_cases hk : k1 = k
      · subst hk
        have h1 : eraseTab ((k1, c) :: rest) k1 = rest := by simp [eraseTab]
        have h2 : lookupTab ((k1, c) :: rest) k' = lookupTab rest k' := by
          simp only [lookupTab]
          rw [if_neg (fun hh : k1 = k' => h hh.symm)]
        rw [h1, h2]
      · simp only [eraseTab, if_neg hk, lookupTab]
        by_cases hk' : k1 = k'
        · simp [hk']
        · simp only [if_neg hk', ih]

theorem not_mem_of_lookupTab_eq_none (tab : List (String × SConn)) (k : String)
    (h : lookupTab tab k = none) : k ∉ tab.map Prod.fst := by
  induction tab with
  | nil => simp
  | cons p rest ih =>
      obtain ⟨k1, c⟩ := p
      simp only [lookupTab] at h
      by_cases hk : k1 = k
      · rw [if_pos hk] at h; exact absurd h (by simp)
      · rw [if_neg hk] at h
        simp only [List.map_cons, List.mem_cons]
        push_neg
        exact ⟨fun hh => hk hh.symm, ih h⟩

theorem lookup_removeConn_self (tab : List (String × SConn)) (k : String)
    (c1 : SConn) (hnd : (tab.map Prod.fst).Nodup)
    (h : lookupTab tab k = some c1) :
    lookupTab (removeConn tab k c1) k = none := by
  simp only [removeConn, h, if_pos rfl]
  exact lookupTab_eraseTab_self tab k hnd

theorem getConn_attemptIdx (env : SEnv) (st : SSt) (k : String) :
    (getConn env st k).2.1.attemptIdx = st.attemptIdx := by
  cases hl : lookupTab st.tab k <;> simp [getConn, hl]

theorem getConn_lookup (env : SEnv) (st : SSt) (k : String) :
    lookupTab (getConn env st k).2.1.tab k = some (getConn env st k).1 := by
  cases hl : lookupTab st.tab k with
  | none => simp [getConn, hl, lookupTab]
  | some c => simp [getConn, hl]

theorem getConn_of_lookup_none (env : SEnv) (st : SSt) (k : String)
    (h : lookupTab st.tab k = none) :
    getConn env st k = (⟨st.nextId, env.dialErr st.dialIdx⟩,
      { st with tab := (k, ⟨st.nextId, env.dialErr st.dialIdx⟩) :: st.tab,
                nextId := st.nextId + 1, dialIdx := st.dialIdx + 1 },
      [Ev.dial st.dialIdx]) := by
  simp [getConn, h]

theorem getConn_of_lookup_some (env : SEnv) (st : SSt) (k : String)
    (c : SConn) (h : lookupTab st.tab k = some c) :
    getConn env st k = (c, st, []) := by
  simp [getConn, h]

theorem getConn_no_attempt (env : SEnv) (st : SSt) (k : String) :
    ∀ n sd, Ev.attempt n sd ∉ (getConn env st k).2.2 := by
  intro n sd
  cases hl : lookupTab st.tab k <;> simp [getConn, hl]

theorem openLoop_trace_head (env : SEnv) (T dl : Nat) (k : String)
    (fuel sd : Nat) (st : SSt) (r : Except Nat Nat) (st2 : SSt) (evs : List Ev)
    (hl : lookupTab st.tab k = none)
    (h : openLoop env T dl k fuel sd st = some (r, st2, evs)) :
    ∃ rest, evs = Ev.dial st.dialIdx :: rest := by
  cases fuel with
  | zero => simp [openLoop] at h
  | succ m =>
      simp only [openLoop, getConn_of_lookup_none env st k hl] at h
      rcases hd : env.dialErr st.dialIdx with _ | e <;> simp only [hd] at h
      · rcases hsess : env.sessErr st.attemptIdx with _ | e2 <;>
          simp only [hsess] at h
        · simp only [Option.some.injEq, Prod.mk.injEq] at h
          exact ⟨_, h.2.2.symm⟩
        · by_cases hcond : T > 0 ∧ env.nowAt st.attemptIdx > dl
          · rw [if_pos hcond] at h
            simp only [Option.some.injEq, Prod.mk.injEq] at h
            exact ⟨_, h.2.2.symm⟩
          · rw [if_neg hcond] at h
            split at h
            · exact absurd h (by simp)
            · simp only [Option.some.injEq, Prod.mk.injEq] at h
              exact ⟨_, h.2.2.symm⟩
      · simp only [Option.some.injEq, Prod.mk.injEq] at h
        exact ⟨_, h.2.2.symm⟩

/-! ### System A invariants -/

theorem upd_self {N : Nat} (f : Fin N → CSt) (i : Fin N) (v : CSt) :
    upd f i v i = v := by simp [upd]

theorem upd_other {N : Nat} (f : Fin N → CSt) (i j : Fin N) (v : CSt)
    (h : j ≠ i) : upd f i v j = f j := by simp [upd, h]

theorem not_inFl_start : ¬ inFl CSt.start := by simp [inFl]

theorem not_inFl_waiting : ¬ inFl CSt.waiting := by simp [inFl]

theorem not_inFl_done : ¬ inFl CSt.done := by simp [inFl]

theorem AInv_init (oc : Option Nat) (N : Nat) : AInv oc (AInit N) := by
  constructor
  · intro _
    exact ⟨rfl, fun i => rfl⟩
  · intro e he
    exact absurd he (by simp [AInit])

theorem AInv_step (oc : Option Nat) {N : Nat} (s s2 : ASt N)
    (hs : AStep oc s s2) (h : AInv oc s) : AInv oc s2 := by
  obtain ⟨hnone, hsome⟩ := h
  cases hs with
  | enterWait i e hst hent =>
      obtain ⟨a, b, c, eI, g, hD⟩ := hsome e hent
      constructor
      · intro h2
        dsimp only at h2
        rw [hent] at h2
        exact absurd h2 (by simp)
      · intro e' he'
        dsimp only at he'
        rw [hent] at he'
        injection he' with hh
        subst hh
        refine ⟨a, ?_, ?_, ?_, ?_, ?_⟩
        · intro i1 j1 h1 h2
          dsimp only at h1 h2
          by_cases e1 : i1 = i
          · subst e1
            rw [upd_self] at h1
            exact absurd h1 not_inFl_waiting
          · rw [upd_other _ _ _ _ e1] at h1
            by_cases e2 : j1 = i
            · subst e2
              rw [upd_self] at h2
              exact absurd h2 not_inFl_waiting
            · rw [upd_other _ _ _ _ e2] at h2
              exact b i1 j1 h1 h2
        · intro i1 h1
          dsimp only at h1
          by_cases e1 : i1 = i
          · subst e1
            rw [upd_self] at h1
            simp at h1
          · rw [upd_other _ _ _ _ e1] at h1
            exact c i1 h1
        · intro hrdy
          refine ⟨(eI hrdy).1, ?_⟩
          intro j
          dsimp only
          by_cases ej : j = i
          · subst ej
            rw [upd_self]
            exact not_inFl_waiting
          · rw [upd_other _ _ _ _ ej]
            exact (eI hrdy).2 j
        · rintro ⟨j, hj⟩
          dsimp only at hj
          by_cases ej : j = i
          · subst ej
            rw [upd_self] at hj
            simp at hj
          · rw [upd_other _ _ _ _ ej] at hj
            exact g ⟨j, hj⟩
        · rintro ⟨j, hj⟩
          dsimp only at hj
          by_cases ej : j = i
          · subst ej
            rw [upd_self] at hj
            simp at hj
          · rw [upd_other _ _ _ _ ej] at hj
            exact hD ⟨j, hj⟩
  | enterDial i hst hent =>
      obtain ⟨hd0, hall⟩ := hnone hent
      constructor
      · intro h2
        exact absurd h2 (by simp)
      · intro e' he'
        dsimp only at he'
        injection he' with hh
        subst hh
        refine ⟨by dsimp only; omega, ?_, ?_, ?_, ?_, ?_⟩
        · intro i1 j1 h1 h2
          dsimp only at h1 h2
          by_cases e1 : i1 = i
          · by_cases e2 : j1 = i
            · subst e1; subst e2; rfl
            · rw [upd_other _ _ _ _ e2, hall j1] at h2
              exact absurd h2 not_inFl_start
          · rw [upd_other _ _ _ _ e1, hall i1] at h1
            exact absurd h1 not_inFl_start
        · intro i1 h1
          dsimp only at h1
          by_cases e1 : i1 = i
          · subst e1
            rw [upd_self] at h1
            simp at h1
          · rw [upd_other _ _ _ _ e1, hall i1] at h1
            simp at h1
        · intro hrdy
          simp at hrdy
        · rintro ⟨j, hj⟩
          dsimp only at hj
          by_cases ej : j = i
          · subst ej
            rw [upd_self] at hj
            simp at hj
          · rw [upd_other _ _ _ _ ej, hall j] at hj
            simp at hj
        · intro _
          exact ⟨rfl, rfl⟩
  | dialWrite i e hdi hent =>
      obtain ⟨a, b, c, eI, g, hD⟩ := hsome e hent
      obtain ⟨hres, hrdy⟩ := hD ⟨i, hdi⟩
      constructor
      · intro h2
        exact absurd h2 (by simp)
      · intro e' he'
        dsimp only at he'
        injection he' with hh
        subst hh
        refine ⟨a, ?_, ?_, ?_, ?_, ?_⟩
        · intro i1 j1 h1 h2
          dsimp only at h1 h2
          by_cases e1 : i1 = i
          · by_cases e2 : j1 = i
            · subst e1; subst e2; rfl
            · subst e1
              rw [upd_other _ _ _ _ e2] at h2
              exact b i1 j1 (Or.inl hdi) h2
          · rw [upd_other _ _ _ _ e1] at h1
            by_cases e2 : j1 = i
            · subst e2
              exact b i1 j1 h1 (Or.inl hdi)
            · rw [upd_other _ _ _ _ e2] at h2
              exact b i1 j1 h1 h2
        · intro i1 h1
          dsimp only at h1
          by_cases e1 : i1 = i
          · subst e1
            rw [upd_self] at h1
            simp at h1
          · rw [upd_other _ _ _ _ e1] at h1
            have hcr := c i1 h1
            rw [hrdy] at hcr
            exact absurd hcr (by simp)
        · intro hrdy2
          dsimp only at hrdy2
          rw [hrdy] at hrdy2
          exact absurd hrdy2 (by simp)
        · intro _
          rfl
        · rintro ⟨j, hj⟩
          dsimp only at hj
          by_cases ej : j = i
          · subst ej
            rw [upd_self] at hj
            simp at hj
          · rw [upd_other _ _ _ _ ej] at hj
            exact absurd (b j i (Or.inl hj) (Or.inl hdi)) ej
  | closeOk i e hcl hent =>
      obtain ⟨a, b, c, eI, g, hD⟩ := hsome e hent
      have hres : e.res = some oc := g ⟨i, hcl⟩
      constructor
      · intro h2
        exact absurd h2 (by simp)
      · intro e' he'
        dsimp only at he'
        injection he' with hh
        subst hh
        refine ⟨a, ?_, fun _ _ => rfl, ?_, fun _ => hres, ?_⟩
        · intro i1 j1 h1 h2
          dsimp only at h1 h2
          by_cases e1 : i1 = i
          · subst e1
            rw [upd_self] at h1
            exact absurd h1 not_inFl_done
          · rw [upd_other _ _ _ _ e1] at h1
            by_cases e2 : j1 = i
            · subst e2
              rw [upd_self] at h2
              exact absurd h2 not_inFl_done
            · rw [upd_other _ _ _ _ e2] at h2
              exact b i1 j1 h1 h2
        · intro _
          refine ⟨hres, ?_⟩
          intro j
          dsimp only
          by_cases ej : j = i
          · subst ej
            rw [upd_self]
            exact not_inFl_done
          · rw [upd_other _ _ _ _ ej]
            intro hj
            exact absurd (b j i hj (Or.inr hcl)) ej
        · rintro ⟨j, hj⟩
          dsimp only at hj
          by_cases ej : j = i
          · subst ej
            rw [upd_self] at hj
            simp at hj
          · rw [upd_other _ _ _ _ ej] at hj
            exact absurd (b j i (Or.inl hj) (Or.inr hcl)) ej
  | waitDone i e hw hent hrdy =>
      obtain ⟨a, b, c, eI, g, hD⟩ := hsome e hent
      constructor
      · intro h2
        dsimp only at h2
        rw [hent] at h2
        exact absurd h2 (by simp)
      · intro e' he'
        dsimp only at he'
        rw [hent] at he'
        injection he' with hh
        subst hh
        refine ⟨a, ?_, ?_, ?_, ?_, ?_⟩
        · intro i1 j1 h1 h2
          dsimp only at h1 h2
          by_cases e1 : i1 = i
          · subst e1
            rw [upd_self] at h1
            exact absurd h1 not_inFl_done
          · rw [upd_other _ _ _ _ e1] at h1
            by_cases e2 : j1 = i
            · subst e2
              rw [upd_self] at h2
              exact absurd h2 not_inFl_done
            · rw [upd_other _ _ _ _ e2] at h2
              exact b i1 j1 h1 h2
        · intro i1 h1
          dsimp only at h1
          by_cases e1 : i1 = i
          · subst e1
            exact hrdy
          · rw [upd_other _ _ _ _ e1] at h1
            exact c i1 h1
        · intro hrdy2
          refine ⟨(eI hrdy2).1, ?_⟩
          intro j
          dsimp only
          by_cases ej : j = i
          · subst ej
            rw [upd_self]
            exact not_inFl_done
          · rw [upd_other _ _ _ _ ej]
            exact (eI hrdy2).2 j
        · rintro ⟨j, hj⟩
          dsimp only at hj
          by_cases ej : j = i
          · subst ej
            rw [upd_self] at hj
            simp at hj
          · rw [upd_other _ _ _ _ ej] at hj
            exact g ⟨j, hj⟩
        · rintro ⟨j, hj⟩
          dsimp only at hj
          by_cases ej : j = i
          · subst ej
            rw [upd_self] at hj
            simp at hj
          · rw [upd_other _ _ _ _ ej] at hj
            exact hD ⟨j, hj⟩

theorem AReach_inv (oc : Option Nat) (N : Nat) (s : ASt N)
    (hr : AReach oc N s) : AInv oc s := by
  induction hr with
  | refl => exact AInv_init oc N
  | tail h1 h2 ih => exact AInv_step oc _ _ h2 ih

theorem astep_w1 : AStep (none : Option Nat) (AInit 2) sW1 :=
  AStep.enterDial (AInit 2) 0 rfl rfl

theorem astep_w2 : AStep (none : Option Nat) sW1 sW2 :=
  AStep.dialWrite sW1 0 ⟨false, none⟩ rfl rfl

theorem astep_w3 : AStep (none : Option Nat) sW2 sW3 :=
  AStep.closeOk sW2 0 ⟨false, some none⟩ rfl rfl

theorem astep_w4 : AStep (none : Option Nat) sW3 sW4 :=
  AStep.enterWait sW3 1 ⟨true, some none⟩ rfl rfl

theorem astep_w5 : AStep (none : Option Nat) sW4 sW5 :=
  AStep.waitDone sW4 1 ⟨true, some none⟩ rfl rfl rfl

theorem reach_sW3 : AReach none 2 sW3 :=
  Relation.ReflTransGen.tail
    (Relation.ReflTransGen.tail
      (Relation.ReflTransGen.tail Relation.ReflTransGen.refl astep_w1)
      astep_w2)
    astep_w3

theorem reach_sW5 : AReach none 2 sW5 :=
  Relation.ReflTransGen.tail
    (Relation.ReflTransGen.tail reach_sW3 astep_w4) astep_w5

/-! ### Round-trip of the default Key Deriver -/

theorem hexVal_hexDig (n : Nat) (h : n < 16) : hexVal (hexDig n) = n := by
  interval_cases n <;> decide

theorem hexValList_two (d1 d2 : Char) :
    hexValList [d1, d2] = 16 * hexVal d1 + hexVal d2 := by
  simp only [hexValList, List.foldl]
  omega

theorem hexValList_four (d1 d2 d3 d4 : Char) :
    hexValList [d1, d2, d3, d4]
      = 4096 * hexVal d1 + 256 * hexVal d2 + 16 * hexVal d3 + hexVal d4 := by
  simp only [hexValList, List.foldl]
  omega

theorem hexValList_eight (d1 d2 d3 d4 d5 d6 d7 d8 : Char) :
    hexValList [d1, d2, d3, d4, d5, d6, d7, d8]
      = 268435456 * hexVal d1 + 16777216 * hexVal d2 + 1048576 * hexVal d3
        + 65536 * hexVal d4 + 4096 * hexVal d5 + 256 * hexVal d6
        + 16 * hexVal d7 + hexVal d8 := by
  simp only [hexValList, List.foldl]
  omega

theorem char_toNat_lt (r : Char) : r.toNat < 1114112 := by
  rcases r.valid with h | ⟨h1, h2⟩
  · exact Nat.lt_trans h (by norm_num)
  · exact h2

theorem parseBody_quoteRune (isP : Char → Bool) (r : Char) (tail : List Char) :
    parseBody (quoteRune isP r ++ tail) = consFst r (parseBody tail) := by
  unfold quoteRune
  by_cases h1 : r = '"' ∨ r = '\\'
  · rw [if_pos h1]
    simp only [List.cons_append, List.nil_append]
    rw [parseBody.eq_def]
    simp [h1]
  rw [if_neg h1]
  push_neg at h1
  by_cases h2 : isP r = true
  · rw [if_pos h2]
    simp only [List.cons_append, List.nil_append]
    rw [parseBody.eq_def]
    simp [h1.1, h1.2]
  rw [if_neg h2]
  by_cases h3 : r = Char.ofNat 7
  · subst h3
    rw [if_pos rfl]
    simp only [List.cons_append, List.nil_append]
    rw [parseBody.eq_def]
    simp
  rw [if_neg h3]
  by_cases h4 : r = Char.ofNat 8
  · subst h4
    rw [if_pos rfl]
    simp only [List.cons_append, List.nil_append]
    rw [parseBody.eq_def]
    simp
  rw [if_neg h4]
  by_cases h5 : r = Char.ofNat 12
  · subst h5
    rw [if_pos rfl]
    simp only [List.cons_append, List.nil_append]
    rw [parseBody.eq_def]
    simp
  rw [if_neg h5]
  by_cases h6 : r = '\n'
  · subst h6
    rw [if_pos rfl]
    simp only [List.cons_append, List.nil_append]
    rw [parseBody.eq_def]
    simp
  rw [if_neg h6]
  by_cases h7 : r = Char.ofNat 13
  · subst h7
    rw [if_pos rfl]
    simp only [List.cons_append, List.nil_append]
    rw [parseBody.eq_def]
    simp
  rw [if_neg h7]
  by_cases h8 : r = '\t'
  · subst h8
    rw [if_pos rfl]
    simp only [List.cons_append, List.nil_append]
    rw [parseBody.eq_def]
    simp
  rw [if_neg h8]
  by_cases h9 : r = Char.ofNat 11
  · subst h9
    rw [if_pos rfl]
    simp only [List.cons_append, List.nil_append]
    rw [parseBody.eq_def]
    simp
  rw [if_neg h9]
  by_cases h10 : r.toNat < 32
  · rw [if_pos h10]
    have hv1 := hexVal_hexDig (r.toNat / 16 % 16) (by omega)
    have hv2 := hexVal_hexDig (r.toNat % 16) (by omega)
    have ht : 16 * (r.toNat / 16 % 16) + r.toNat % 16 = r.toNat := by omega
    simp only [escByte, List.cons_append, List.nil_append]
    rw [parseBody.eq_def]
    simp [hexValList_two, hv1, hv2, ht, Char.ofNat_toNat]
  rw [if_neg h10]
  by_cases h11 : r.toNat < 65536
  · rw [if_pos h11]
    have hv1 := hexVal_hexDig (r.toNat / 4096 % 16) (by omega)
    have hv2 := hexVal_hexDig (r.toNat / 256 % 16) (by omega)
    have hv3 := hexVal_hexDig (r.toNat / 16 % 16) (by omega)
    have hv4 := hexVal_hexDig (r.toNat % 16) (by omega)
    have ht : 4096 * (r.toNat / 4096 % 16) + 256 * (r.toNat / 256 % 16)
        + 16 * (r.toNat / 16 % 16) + r.toNat % 16 = r.toNat := by omega
    simp only [escU4, List.cons_append, List.nil_append]
    rw [parseBody.eq_def]
    simp [hexValList_four, hv1, hv2, hv3, hv4, ht, Char.ofNat_toNat]
  rw [if_neg h11]
  have hb := char_toNat_lt r
  have hv1 := hexVal_hexDig (r.toNat / 268435456 % 16) (by omega)
  have hv2 := hexVal_hexDig (r.toNat / 16777216 % 16) (by omega)
  have hv3 := hexVal_hexDig (r.toNat / 1048576 % 16) (by omega)
  have hv4 := hexVal_hexDig (r.toNat / 65536 % 16) (by omega)
  have hv5 := hexVal_hexDig (r.toNat / 4096 % 16) (by omega)
  have hv6 := hexVal_hexDig (r.toNat / 256 % 16) (by omega)
  have hv7 := hexVal_hexDig (r.toNat / 16 % 16) (by omega)
  have hv8 := hexVal_hexDig (r.toNat % 16) (by omega)
  have ht : 268435456 * (r.toNat / 268435456 % 16)
      + 16777216 * (r.toNat / 16777216 % 16)
      + 1048576 * (r.toNat / 1048576 % 16) + 65536 * (r.toNat / 65536 % 16)
      + 4096 * (r.toNat / 4096 % 16) + 256 * (r.toNat / 256 % 16)
      + 16 * (r.toNat / 16 % 16) + r.toNat % 16 = r.toNat := by omega
  simp only [escU8, List.cons_append, List.nil_append]
  rw [parseBody.eq_def]
  simp [hexValList_eight, hv1, hv2, hv3, hv4, hv5, hv6, hv7, hv8, ht,
    Char.ofNat_toNat]

theorem parseBody_quoteBody (isP : Char → Bool) (s : List Char)
    (rest : List Char) :
    parseBody (s.flatMap (quoteRune isP) ++ ('"' :: rest)) = some (s, rest) := by
  induction s with
  | nil =>
      rw [List.flatMap_nil, List.nil_append, parseBody.eq_def]
      simp
  | cons r s' ih =>
      rw [List.flatMap_cons, List.append_assoc, parseBody_quoteRune, ih]
      rfl

theorem parseQuoted_quote (isP : Char → Bool) (s rest : List Char) :
    parseQuoted (quote isP s ++ rest) = some (s, rest) := by
  simp only [quote, List.cons_append, parseQuoted, if_pos rfl]
  rw [List.append_assoc]
  simp only [List.singleton_append]
  exact parseBody_quoteBody isP s rest

theorem parseKey_AddrUserKey (isP : Char → Bool) (n a u : List Char) :
    parseKey (AddrUserKey isP n a u) = some (n, a, u) := by
  unfold AddrUserKey parseKey
  have h := parseQuoted_quote isP u []
  rw [List.append_nil] at h
  rw [List.append_assoc, List.append_assoc, List.append_assoc]
  simp [parseQuoted_quote, h]

/-- C6: the default key deriver `AddrUserKey` is injective in
(network kind, address, credential-owner identity): it returns equal
strings exactly when the network strings, the address strings and the
`config.User` strings are all pairwise equal — quoting each component
neutralizes embedded separator characters, so they cause no collisions.
The printability predicate `isP` is arbitrary; Go's `unicode.IsPrint` is
one instance. -/
theorem AddrUserKey_injective (isP : Char → Bool)
    (n1 a1 u1 n2 a2 u2 : List Char) :
    AddrUserKey isP n1 a1 u1 = AddrUserKey isP n2 a2 u2 ↔
      (n1 = n2 ∧ a1 = a2 ∧ u1 = u2) := by
  constructor
  · intro h
    have h1 := parseKey_AddrUserKey isP n1 a1 u1
    rw [h, parseKey_AddrUserKey] at h1
    simp only [Option.some.injEq, Prod.mk.injEq] at h1
    exact ⟨h1.1.symm, h1.2.1.symm, h1.2.2.symm⟩
  · rintro ⟨rfl, rfl, rfl⟩
    rfl

/-! ### Claim theorems: removeConn, dial, newSession -/

/-- C5: `removeConn(k, e)` deletes the table mapping for `k` exactly when the
stored entry is reference-identical to `e`; it never deletes a different
(fresher) entry stored under `k`, and it leaves all other keys' mappings
unchanged. -/
theorem removeConn_compare_and_delete (tab : List (String × SConn)) (k : String)
    (c1 : SConn) (hnd : (tab.map Prod.fst).Nodup) :
    (lookupTab tab k = some c1 → lookupTab (removeConn tab k c1) k = none)
    ∧ (∀ c, lookupTab tab k = some c → c ≠ c1 → removeConn tab k c1 = tab)
    ∧ (lookupTab tab k = none → removeConn tab k c1 = tab)
    ∧ (∀ k', k' ≠ k → lookupTab (removeConn tab k c1) k' = lookupTab tab k') := by
  refine ⟨?_, ?_, ?_, ?_⟩
  · intro h
    exact lookup_removeConn_self tab k c1 hnd h
  · intro c hc hne
    simp only [removeConn, hc]
    rw [if_neg hne]
  · intro h
    simp only [removeConn, h]
  · intro k' hk'
    cases hl : lookupTab tab k with
    | none => simp only [removeConn, hl]
    | some c =>
        simp only [removeConn, hl]
        by_cases hc : c = c1
        · rw [if_pos hc]
          exact lookupTab_eraseTab_ne tab k k' hk'
        · rw [if_neg hc]

/-- C2: when `getConn` yields an entry whose dial failed, `Open` removes
that entry from the table and returns the dial error to the caller with no
session attempt in the same call; because the failed entry is evicted,
every subsequent `Open` for the same key starts with a fresh Dialer
invocation. -/
theorem open_dial_error_not_cached (env : SEnv) (T now0 fuel : Nat)
    (k : String) (st : SSt) (e : Nat)
    (hnd : ((getConn env st k).2.1.tab.map Prod.fst).Nodup)
    (herr : (getConn env st k).1.err = some e) (hfuel : 0 < fuel) :
    ∃ st1, OpenS env T now0 k fuel st
        = some (Except.error e, st1, (getConn env st k).2.2)
      ∧ lookupTab st1.tab k = none
      ∧ (∀ n sd, Ev.attempt n sd ∉ (getConn env st k).2.2)
      ∧ (∀ env2 T2 now2 fuel2 r2 st2 evs2,
          OpenS env2 T2 now2 k fuel2 st1 = some (r2, st2, evs2) →
          ∃ rest, evs2 = Ev.dial st1.dialIdx :: rest) := by
  obtain ⟨m, rfl⟩ : ∃ m, fuel = m + 1 :=
    ⟨fuel - 1, (Nat.succ_pred_eq_of_pos hfuel).symm⟩
  rcases hG : getConn env st k with ⟨c, st1, evs1⟩
  rw [hG] at herr hnd
  simp only at herr hnd
  have hlk : lookupTab st1.tab k = some c := by
    have h := getConn_lookup env st k
    rw [hG] at h
    exact h
  have hrm : lookupTab (removeConn st1.tab k c) k = none :=
    lookup_removeConn_self st1.tab k c hnd hlk
  refine ⟨{ st1 with tab := removeConn st1.tab k c }, ?_, hrm, ?_, ?_⟩
  · simp only [OpenS, openLoop, hG, herr]
  · have h := getConn_no_attempt env st k
    rw [hG] at h
    exact h
  · intro env2 T2 now2 fuel2 r2 st2 evs2 h2
    simp only [OpenS] at h2
    exact openLoop_trace_head env2 T2 _ k fuel2 _ _ r2 st2 evs2 hrm h2

theorem open_dial_error_not_cached_witness :
    ∃ st1, OpenS envDialFail 0 0 "h" 1 st0
        = some (Except.error 5, st1, (getConn envDialFail st0 "h").2.2)
      ∧ lookupTab st1.tab "h" = none := by
  obtain ⟨st1, h1, h2, h3, h4⟩ :=
    open_dial_error_not_cached envDialFail 0 0 1 "h" st0 5 (by decide)
      (by decide) (by decide)
  exact ⟨st1, h1, h2⟩

theorem removeConn_compare_and_delete_witness :
    lookupTab (removeConn [("a", (⟨0, none⟩ : SConn)), ("b", ⟨1, none⟩)] "a"
      ⟨0, none⟩) "a" = none
    ∧ removeConn [("a", (⟨0, none⟩ : SConn)), ("b", ⟨1, none⟩)] "a" ⟨2, none⟩
      = [("a", ⟨0, none⟩), ("b", ⟨1, none⟩)] :=
  ⟨(removeConn_compare_and_delete [("a", ⟨0, none⟩), ("b", ⟨1, none⟩)] "a"
      ⟨0, none⟩ (by decide)).1 (by decide),
   (removeConn_compare_and_delete [("a", ⟨0, none⟩), ("b", ⟨1, none⟩)] "a"
      ⟨2, none⟩ (by decide)).2.1 ⟨0, none⟩ (by decide) (by decide)⟩

/-- C9: in the default Dialer, when the raw network dial succeeds but the ssh
handshake fails, the network connection is closed before the error is
returned and both returned handles are nil alongside the non-nil error;
when the raw dial fails, the error is returned with both handles nil. -/
theorem dial_cleanup (raw : Except Nat Nat) (hs : Nat → Except Nat Nat) :
    (∀ nc e, raw = Except.ok nc → hs nc = Except.error e →
       dial raw hs = ((none, none, some e), [DEv.rawDial, DEv.closeNet nc]))
    ∧ (∀ e, raw = Except.error e →
       dial raw hs = ((none, none, some e), [DEv.rawDial])) := by
  constructor
  · intro nc e hraw hhs
    simp [dial, hraw, hhs]
  · intro e hraw
    simp [dial, hraw]

theorem dial_cleanup_witness :
    dial (Except.ok 4) (fun _ => Except.error 9)
      = ((none, none, some 9), [DEv.rawDial, DEv.closeNet 4])
    ∧ dial (Except.error 7) (fun _ => Except.ok 1)
      = ((none, none, some 7), [DEv.rawDial]) :=
  ⟨(dial_cleanup (Except.ok 4) (fun _ => Except.error 9)).1 4 9 rfl rfl,
   (dial_cleanup (Except.error 7) (fun _ => Except.ok 1)).2 7 rfl⟩

/-- C10: with a nonzero per-attempt deadline, `newSession` sets the
transport's deadline for the attempt and restores it to the zero value
before returning, whether the attempt succeeds or fails, leaving the
transport with no deadline; with a zero deadline the transport is never
touched. -/
theorem newSession_restores_deadline (res : Except Nat Nat) (dl : Nat)
    (tr : Transport) :
    (dl ≠ 0 →
       (newSession res dl tr).1 = res
       ∧ (newSession res dl tr).2.1.deadline = 0
       ∧ (newSession res dl tr).2.2
           = [NEv.setDL dl, NEv.callNewSession, NEv.setDL 0])
    ∧ (dl = 0 →
       (newSession res dl tr).1 = res
       ∧ (newSession res dl tr).2.1 = tr
       ∧ (newSession res dl tr).2.2 = [NEv.callNewSession]) := by
  constructor
  · intro h
    simp [newSession, h, setDeadlineOp]
  · intro h
    simp [newSession, h]

theorem newSession_restores_deadline_witness :
    (newSession (Except.error 2) 3 ⟨7⟩).2.1.deadline = 0
    ∧ (newSession (Except.ok 5) 0 ⟨7⟩).2.1 = Transport.mk 7 :=
  ⟨((newSession_restores_deadline (Except.error 2) 3 ⟨7⟩).1 (by decide)).2.1,
   ((newSession_restores_deadline (Except.ok 5) 0 ⟨7⟩).2 rfl).2.1⟩

theorem openLoop_succ (env : SEnv) (T dl : Nat) (k : String) (fuel sd : Nat)
    (st : SSt) :
    openLoop env T dl k (fuel + 1) sd st =
      (let g := getConn env st k
       let c := g.1
       let st1 := g.2.1
       let evs1 := g.2.2
       match c.err with
       | some e =>
           some (Except.error e, { st1 with tab := removeConn st1.tab k c },
             evs1)
       | none =>
           let a := st1.attemptIdx
           let st2 := { st1 with attemptIdx := a + 1 }
           let evs2 := evs1 ++ [Ev.attempt a sd]
           match env.sessErr a with
           | none => some (Except.ok a, st2, evs2)
           | some e =>
               let st3 := { st2 with tab := removeConn st2.tab k c }
               let evs3 := evs2 ++ [Ev.closeClient c.id]
               if T > 0 ∧ env.nowAt a > dl then
                 some (Except.error e, st3, evs3)
               else
                 match openLoop env T dl k fuel dl st3 with
                 | none => none
                 | some (r, st4, evs4) => some (r, st4, evs3 ++ evs4)) := rfl

theorem openLoop_isSome (env : SEnv) (T dl : Nat) (k : String) :
    ∀ (n sd : Nat) (st : SSt), 0 < T →
      (∀ j, st.attemptIdx + n ≤ j → dl < env.nowAt j) →
      (openLoop env T dl k (n + 1) sd st).isSome := by
  intro n
  induction n with
  | zero =>
      intro sd st hT hnow
      rcases hG : getConn env st k with ⟨c, st1, evs1⟩
      have ha : st1.attemptIdx = st.attemptIdx := by
        have h := getConn_attemptIdx env st k; rw [hG] at h; exact h
      rw [openLoop_succ]
      simp only [hG]
      rcases hce : c.err with _ | e
      · simp only [hce]
        rcases hsess : env.sessErr st1.attemptIdx with _ | e2
        · simp [hsess]
        · simp only [hsess]
          rw [if_pos ⟨hT, by rw [ha]; exact hnow st.attemptIdx (by omega)⟩]
          simp
      · simp [hce]
  | succ m ih =>
      intro sd st hT hnow
      rcases hG : getConn env st k with ⟨c, st1, evs1⟩
      have ha : st1.attemptIdx = st.attemptIdx := by
        have h := getConn_attemptIdx env st k; rw [hG] at h; exact h
      rw [openLoop_succ]
      simp only [hG]
      rcases hce : c.err with _ | e
      · simp only [hce]
        rcases hsess : env.sessErr st1.attemptIdx with _ | e2
        · simp [hsess]
        · simp only [hsess]
          by_cases hcond : T > 0 ∧ env.nowAt st1.attemptIdx > dl
          · rw [if_pos hcond]; simp
          · rw [if_neg hcond]
            have hnow3 : ∀ j,
                (⟨removeConn st1.tab k c, st1.nextId, st1.dialIdx,
                  st1.attemptIdx + 1⟩ : SSt).attemptIdx + m ≤ j →
                dl < env.nowAt j := by
              intro j hj
              apply hnow
              simp only at hj
              omega
            obtain ⟨y, hy⟩ := Option.isSome_iff_exists.mp
              (ih dl ⟨removeConn st1.tab k c, st1.nextId, st1.dialIdx,
                st1.attemptIdx + 1⟩ hT hnow3)
            rw [hy]
            simp
      · simp [hce]

theorem attemptDLs_getConn (env : SEnv) (st : SSt) (k : String) :
    attemptDLs (getConn env st k).2.2 = [] := by
  cases hl : lookupTab st.tab k <;> simp [getConn, hl, attemptDLs]

theorem attemptDLs_append (xs ys : List Ev) :
    attemptDLs (xs ++ ys) = attemptDLs xs ++ attemptDLs ys :=
  List.filterMap_append xs ys _

theorem openLoop_attemptDLs (env : SEnv) (T dl : Nat) (k : String) :
    ∀ (fuel sd : Nat) (st : SSt) (r : Except Nat Nat) (st2 : SSt)
      (evs : List Ev),
      openLoop env T dl k fuel sd st = some (r, st2, evs) →
      attemptDLs evs = [] ∨
        ∃ ds, attemptDLs evs = sd :: ds ∧ ∀ d ∈ ds, d = dl := by
  intro fuel
  induction fuel with
  | zero => intro sd st r st2 evs h; simp [openLoop] at h
  | succ m ih =>
      intro sd st r st2 evs h
      rcases hG : getConn env st k with ⟨c, st1, evs1⟩
      have hevs1 : attemptDLs evs1 = [] := by
        have h1 := attemptDLs_getConn env st k; rw [hG] at h1; exact h1
      simp only [openLoop, hG] at h
      rcases hce : c.err with _ | e <;> simp only [hce] at h
      · rcases hsess : env.sessErr st1.attemptIdx with _ | e2 <;>
          simp only [hsess] at h
        · simp only [Option.some.injEq, Prod.mk.injEq] at h
          refine Or.inr ⟨[], ?_, by simp⟩
          rw [← h.2.2, attemptDLs_append, hevs1]
          rfl
        · by_cases hcond : T > 0 ∧ env.nowAt st1.attemptIdx > dl
          · rw [if_pos hcond] at h
            simp only [Option.some.injEq, Prod.mk.injEq] at h
            refine Or.inr ⟨[], ?_, by simp⟩
            rw [← h.2.2, attemptDLs_append, attemptDLs_append, hevs1]
            rfl
          · rw [if_neg hcond] at h
            split at h
            · exact absurd h (by simp)
            · rename_i r4 st4 evs4 heq
              simp only [Option.some.injEq, Prod.mk.injEq] at h
              have hih := ih dl _ r4 st4 evs4 heq
              refine Or.inr ⟨attemptDLs evs4, ?_, ?_⟩
              · rw [← h.2.2, attemptDLs_append, attemptDLs_append,
                  attemptDLs_append, hevs1]
                rfl
              · intro d hd
                rcases hih with h0 | ⟨ds, hds, hall⟩
                · rw [h0] at hd; exact absurd hd (by simp)
                · rw [hds] at hd
                  rcases List.mem_cons.mp hd with h1 | h1
                  · exact h1
                  · exact hall d h1
      · simp only [Option.some.injEq, Prod.mk.injEq] at h
        exact Or.inl (h.2.2 ▸ hevs1)

/-- C3: when a session-open attempt on a successfully dialed entry fails,
`Open` evicts the entry from the table, closes its client connection, and
repeats the loop — unless a timeout is configured and the overall deadline
has already passed at the check, in which case it returns that most recent
session-open error; with a timeout configured and a clock that eventually
passes the deadline, the loop always returns within bounded fuel (no
hang). -/
theorem open_session_failure_evict_retry (env : SEnv) (T dl sd : Nat)
    (k : String) (st : SSt) (fuel e : Nat)
    (hnd : ((getConn env st k).2.1.tab.map Prod.fst).Nodup)
    (hcerr : (getConn env st k).1.err = none)
    (hsess : env.sessErr st.attemptIdx = some e) :
    (T > 0 ∧ env.nowAt st.attemptIdx > dl →
       openLoop env T dl k (fuel + 1) sd st
         = some (Except.error e,
             ⟨removeConn (getConn env st k).2.1.tab k (getConn env st k).1,
              (getConn env st k).2.1.nextId, (getConn env st k).2.1.dialIdx,
              (getConn env st k).2.1.attemptIdx + 1⟩,
             (getConn env st k).2.2
               ++ [Ev.attempt st.attemptIdx sd,
                   Ev.closeClient (getConn env st k).1.id]))
    ∧ (¬ (T > 0 ∧ env.nowAt st.attemptIdx > dl) →
       ∀ r st4 evs4,
         openLoop env T dl k fuel dl
             ⟨removeConn (getConn env st k).2.1.tab k (getConn env st k).1,
              (getConn env st k).2.1.nextId, (getConn env st k).2.1.dialIdx,
              (getConn env st k).2.1.attemptIdx + 1⟩
           = some (r, st4, evs4) →
         openLoop env T dl k (fuel + 1) sd st
           = some (r, st4, (getConn env st k).2.2
               ++ [Ev.attempt st.attemptIdx sd,
                   Ev.closeClient (getConn env st k).1.id] ++ evs4))
    ∧ lookupTab
        (removeConn (getConn env st k).2.1.tab k (getConn env st k).1) k
        = none
    ∧ (0 < T → ∀ M, (∀ j, M ≤ j → dl < env.nowAt j) →
       (openLoop env T dl k (M - st.attemptIdx + 1) sd st).isSome) := by
  rcases hG : getConn env st k with ⟨c, st1, evs1⟩
  rw [hG] at hnd hcerr
  simp only at hnd hcerr
  have ha : st1.attemptIdx = st.attemptIdx := by
    have h := getConn_attemptIdx env st k; rw [hG] at h; exact h
  have hlk : lookupTab st1.tab k = some c := by
    have h := getConn_lookup env st k; rw [hG] at h; exact h
  have hrm := lookup_removeConn_self st1.tab k c hnd hlk
  dsimp only
  refine ⟨?_, ?_, hrm, ?_⟩
  · intro hcond
    simp only [openLoop, hG, hcerr, ha, hsess]
    rw [if_pos hcond]
    simp
  · intro hcond r st4 evs4 hrec
    simp only [openLoop, hG, hcerr, hsess, ha]
    rw [if_neg hcond]
    rw [ha] at hrec
    rw [hrec]
    simp
  · intro hT M hM
    have hnow : ∀ j, st.attemptIdx + (M - st.attemptIdx) ≤ j →
        dl < env.nowAt j := by
      intro j hj
      exact hM j (by omega)
    exact openLoop_isSome env T dl k (M - st.attemptIdx) sd st hT hnow

theorem open_session_failure_evict_retry_witness :
    openLoop envSF 10 5 "h" 1 2 st0
      = some (Except.error 3, ⟨[], 1, 1, 1⟩,
          [Ev.dial 0, Ev.attempt 0 2, Ev.closeClient 0]) := by
  rw [(open_session_failure_evict_retry envSF 10 5 2 "h" st0 0 3 (by decide)
    (by decide) (by decide)).1 (by decide)]
  rfl

/-- C4: with a configured timeout `T > 0`, the first session-open attempt of
an `Open` call uses the deadline `now + T/2` and every later attempt in the
same call uses the full overall deadline `now + T`; with timeout zero every
attempt carries the zero deadline, so `newSession` never sets a deadline on
the transport and the attempt is not deadline-bounded. -/
theorem open_deadline_budgeting (env : SEnv) (T now0 fuel : Nat) (k : String)
    (st : SSt) (r : Except Nat Nat) (st2 : SSt) (evs : List Ev)
    (h : OpenS env T now0 k fuel st = some (r, st2, evs)) :
    (0 < T → attemptDLs evs = [] ∨
       ∃ ds, attemptDLs evs = (now0 + T / 2) :: ds ∧ ∀ d ∈ ds, d = now0 + T)
    ∧ (T = 0 → ∀ d ∈ attemptDLs evs, d = 0
         ∧ ∀ res tr, newSession res d tr = (res, tr, [NEv.callNewSession])) := by
  constructor
  · intro hT
    simp only [OpenS, if_pos hT] at h
    exact openLoop_attemptDLs env T (now0 + T) k fuel (now0 + T / 2) st r st2
      evs h
  · intro hT
    subst hT
    simp only [OpenS] at h
    have := openLoop_attemptDLs env 0 0 k fuel 0 st r st2 evs h
    intro d hd
    have hd0 : d = 0 := by
      rcases this with h0 | ⟨ds, hds, hall⟩
      · rw [h0] at hd; exact absurd hd (by simp)
      · rw [hds] at hd
        rcases List.mem_cons.mp hd with h1 | h1
        · exact h1
        · exact hall d h1
    subst hd0
    exact ⟨rfl, fun res tr => by simp [newSession]⟩

theorem open_deadline_budgeting_witness :
    attemptDLs [Ev.dial 0, Ev.attempt 0 105] = [] ∨
      ∃ ds, attemptDLs [Ev.dial 0, Ev.attempt 0 105] = (100 + 10 / 2) :: ds
        ∧ ∀ d ∈ ds, d = 100 + 10 :=
  (open_deadline_budgeting envOK 10 100 1 "h" st0 (Except.ok 0)
    ⟨[("h", ⟨0, none⟩)], 1, 1, 1⟩ [Ev.dial 0, Ev.attempt 0 105]
    (by rfl)).1 (by decide)

/-- C1: single-flight dial per key. In every reachable interleaving of N
concurrent `Open` calls on the same key: (1) at most one dial is in
flight at any instant — the first caller to insert the entry performs it,
every other caller waits on the entry's completion signal; (2) every
caller that finished `getConn` holds the single published entry, whose
signal has fired and which stores the Dialer's outcome — all callers
observe the identical dial outcome; (3) once every caller is done, the
Dialer was invoked exactly once. -/
theorem single_flight_dial (oc : Option Nat) (N : Nat) (s : ASt N)
    (hN : 0 < N) (hr : AReach oc N s) :
    (∀ i j, inFl (s.callers i) → inFl (s.callers j) → i = j)
    ∧ (∀ i, s.callers i = CSt.done →
        ∃ e, s.entry = some e ∧ e.ready = true ∧ e.res = some oc)
    ∧ ((∀ i, s.callers i = CSt.done) → s.dials = 1) := by
  obtain ⟨hnone, hsome⟩ := AReach_inv oc N s hr
  refine ⟨?_, ?_, ?_⟩
  · intro i j h1 h2
    cases hent : s.entry with
    | none =>
        rw [(hnone hent).2 i] at h1
        exact absurd h1 not_inFl_start
    | some e => exact (hsome e hent).2.1 i j h1 h2
  · intro i hdone
    cases hent : s.entry with
    | none =>
        rw [(hnone hent).2 i] at hdone
        simp at hdone
    | some e =>
        obtain ⟨a, b, c, eI, g, hD⟩ := hsome e hent
        have hrdy := c i hdone
        exact ⟨e, rfl, hrdy, (eI hrdy).1⟩
  · intro hall
    cases hent : s.entry with
    | none =>
        have h0 := (hnone hent).2 ⟨0, hN⟩
        rw [hall ⟨0, hN⟩] at h0
        simp at h0
    | some e => exact (hsome e hent).1

theorem single_flight_dial_witness :
    (∀ i, sW5.callers i = CSt.done) ∧ sW5.dials = 1 := by
  have hdone : ∀ i, sW5.callers i = CSt.done := by decide
  exact ⟨hdone,
    (single_flight_dial none 2 sW5 (by decide) reach_sW5).2.2 hdone⟩

/-- C7: a published Connection Entry is written exactly once, by the
dialing caller, strictly before its completion signal fires, and is never
mutated afterwards except for removal from the table: (1) once `ready`, no
step changes the entry; (2) the only step that changes the stored dial
result is the unique dialing caller's field write, performed while the
signal has not fired; (3) when the signal fires the result has already
been written; (4) `removeConn` only ever deletes a table mapping — after
it, the entry visible under any key is the one stored before or gone,
never an altered one. -/
theorem entry_write_once (oc : Option Nat) (N : Nat) (s s2 : ASt N)
    (hr : AReach oc N s) (hstep : AStep oc s s2) :
    (∀ e, s.entry = some e → e.ready = true → s2.entry = some e)
    ∧ (∀ e e2, s.entry = some e → s2.entry = some e2 → e.res ≠ e2.res →
        e.res = none ∧ e2.res = some oc ∧ e.ready = false
          ∧ e2.ready = false
          ∧ ∃ i, s.callers i = CSt.dialing ∧ s2.callers i = CSt.closing)
    ∧ (∀ e, s.entry = some e → e.ready = true → e.res = some oc)
    ∧ (∀ tab k c1 k', (tab.map Prod.fst).Nodup →
        lookupTab (removeConn tab k c1) k' = lookupTab tab k'
        ∨ lookupTab (removeConn tab k c1) k' = none) := by
  obtain ⟨hnone, hsome⟩ := AReach_inv oc N s hr
  refine ⟨?_, ?_, ?_, ?_⟩
  · intro e hent hrdy
    cases hstep with
    | enterWait i e1 hst hent1 => exact hent
    | enterDial i hst hent1 =>
        rw [hent1] at hent
        exact absurd hent (by simp)
    | dialWrite i e1 hdi hent1 =>
        obtain ⟨a, b, c, eI, g, hD⟩ := hsome e hent
        exact absurd (Or.inl hdi) ((eI hrdy).2 i)
    | closeOk i e1 hcl hent1 =>
        obtain ⟨a, b, c, eI, g, hD⟩ := hsome e hent
        exact absurd (Or.inr hcl) ((eI hrdy).2 i)
    | waitDone i e1 hw hent1 hr1 => exact hent
  · intro e e2 hent hent2 hne
    cases hstep with
    | enterWait i e1 hst hent1 =>
        dsimp only at hent2
        rw [hent] at hent2
        injection hent2 with hh
        exact absurd (by rw [hh]) hne
    | enterDial i hst hent1 =>
        rw [hent1] at hent
        exact absurd hent (by simp)
    | dialWrite i e1 hdi hent1 =>
        rw [hent] at hent1
        injection hent1 with hh
        subst hh
        dsimp only at hent2
        injection hent2 with hh2
        obtain ⟨a, b, c, eI, g, hD⟩ := hsome e hent
        obtain ⟨hres, hrdy⟩ := hD ⟨i, hdi⟩
        refine ⟨hres, ?_, hrdy, ?_, ⟨i, hdi, ?_⟩⟩
        · rw [← hh2]
        · rw [← hh2]
          exact hrdy
        · dsimp only
          rw [upd_self]
    | closeOk i e1 hcl hent1 =>
        rw [hent] at hent1
        injection hent1 with hh
        subst hh
        dsimp only at hent2
        injection hent2 with hh2
        have hr2 : e2.res = e.res := by rw [← hh2]
        exact absurd hr2.symm hne
    | waitDone i e1 hw hent1 hr1 =>
        dsimp only at hent2
        rw [hent] at hent2
        injection hent2 with hh
        exact absurd (by rw [hh]) hne
  · intro e hent hrdy
    exact (((hsome e hent).2.2.2.1) hrdy).1
  · intro tab k c1 k' hnd2
    by_cases hk : k' = k
    · subst hk
      cases hl : lookupTab tab k' with
      | none =>
          left
          simp only [removeConn, hl]
      | some c =>
          by_cases hc : c = c1
          · subst hc
            right
            exact lookup_removeConn_self tab k' c hnd2 hl
          · left
            simp only [removeConn, hl]
            rw [if_neg hc]
            exact hl
    · left
      cases hl : lookupTab tab k with
      | none => simp only [removeConn, hl]
      | some c =>
          simp only [removeConn, hl]
          by_cases hc : c = c1
          · rw [if_pos hc]
            exact lookupTab_eraseTab_ne tab k k' hk
          · rw [if_neg hc]

theorem entry_write_once_witness :
    sW4.entry = some (⟨true, some none⟩ : AEntry) :=
  (entry_write_once none 2 sW3 sW4 reach_sW3 astep_w4).1
    ⟨true, some none⟩ rfl rfl

/-! ### System B invariants and C8 -/

theorem doneCount_updB {N : Nat} (f : Fin N → BSt) (i : Fin N)
    (h : f i ≠ BSt.done) :
    doneCount (updB f i BSt.done) = doneCount f + 1 := by
  unfold doneCount
  have hset : Finset.univ.filter (fun j => updB f i BSt.done j = BSt.done)
      = insert i (Finset.univ.filter (fun j => f j = BSt.done)) := by
    ext j
    simp only [Finset.mem_filter, Finset.mem_univ, true_and,
      Finset.mem_insert]
    by_cases hj : j = i
    · subst hj
      simp [updB]
    · simp [updB, hj]
  rw [hset, Finset.card_insert_of_not_mem (by simp [h])]

theorem BInv_init (k : String) (N : Nat) : BInv k (BInit N k) := by
  constructor
  · unfold doneCount BInit
    simp
  · left
    exact ⟨rfl, fun i => by simp [BInit]⟩

theorem BInv_step (k : String) {N : Nat} (s s2 : BState N)
    (hs : BStep k s s2) (h : BInv k s) : BInv k s2 := by
  obtain ⟨hc, hcase⟩ := h
  cases hs with
  | fail i hi =>
      constructor
      · dsimp only
        rw [doneCount_updB s.callers i (by rw [hi]; simp), hc]
      · right
        dsimp only
        refine ⟨?_, ⟨i, by simp [updB]⟩⟩
        rcases hcase with ⟨htab, hnd⟩ | ⟨htab, hex⟩
        · rw [htab]
          simp [removeConn, lookupTab, eraseTab]
        · rw [htab]
          rfl

theorem BReach_inv (k : String) (N : Nat) (s : BState N)
    (hr : BReach k N s) : BInv k s := by
  induction hr with
  | refl => exact BInv_init k N
  | tail h1 h2 ih => exact BInv_step k _ _ h2 ih

theorem reach_sB2 : BReach "h" 2 sB2 :=
  Relation.ReflTransGen.tail
    (Relation.ReflTransGen.tail Relation.ReflTransGen.refl
      (BStep.fail (BInit 2 "h") 0 rfl))
    (BStep.fail sB1 1 rfl)

/-- C8 counterexample: with two concurrent callers holding the same pooled
entry and both session-open attempts failing, each caller runs
`p.removeConn(k, c); c.c.Close()` — the shared transport is closed twice
(`closes = 2`), although the entry was evicted from the table. This
refutes "the transport of an evicted entry is closed exactly once across
all callers". -/
theorem transport_closed_twice :
    BReach "h" 2 sB2 ∧ sB2.closes = 2 ∧ lookupTab sB2.tab "h" = none :=
  ⟨reach_sB2, rfl, rfl⟩

/-- C8 amended: every caller that discovers a session failure on the entry
closes its transport exactly once, so the transport is closed once per
discovering caller — at least once, but possibly more than once under
concurrent discovery; the table eviction itself happens exactly once: the
mapping is gone precisely when at least one caller has run the eviction
path. -/
theorem evicted_closed_per_discoverer (k : String) (N : Nat) (s : BState N)
    (hr : BReach k N s) :
    s.closes = doneCount s.callers
    ∧ (lookupTab s.tab k = none ↔ ∃ i, s.callers i = BSt.done) := by
  obtain ⟨hc, hcase⟩ := BReach_inv k N s hr
  refine ⟨hc, ?_⟩
  rcases hcase with ⟨htab, hnd⟩ | ⟨htab, hex⟩
  · rw [htab]
    constructor
    · intro h0
      simp [lookupTab] at h0
    · rintro ⟨i, hi⟩
      exact absurd hi (hnd i)
  · rw [htab]
    exact ⟨fun _ => hex, fun _ => rfl⟩

theorem evicted_closed_per_discoverer_witness :
    sB2.closes = doneCount sB2.callers
    ∧ (lookupTab sB2.tab "h" = none ↔ ∃ i, sB2.callers i = BSt.done) :=
  evicted_closed_per_discoverer "h" 2 sB2 reach_sB2

end Sshpool
